import Mathlib

/-!
Verification of the async/collection/object/math utility functions of the
`outslept/utils` repository, shallowly embedded in Lean 4.

Embedding conventions:
* JavaScript promises are modelled by explicit effect logs plus `Except`
  results; the single-threaded cooperative scheduler of the event loop is
  modelled, where it matters (`asyncPool`), by a small-step transition
  relation whose interleavings range over every possible completion order.
* JavaScript numbers are modelled by `Int`/`Nat`/`Rat` as appropriate;
  `Number.isInteger q` for a rational `q` is `q.den = 1`.
* JavaScript objects (string-keyed records in insertion order) are modelled
  by association lists `List (String × α)`; property assignment
  `obj[k] = v` updates the entry in place when the key exists and appends
  otherwise, exactly as JS insertion-order semantics do.
* A thrown JS value is either a structured `Error` (carrying its message)
  or an arbitrary non-`Error` value identified by its textual
  representation `String(v)`.
-/

namespace Utils

/-! ## Model of thrown values and errors (src/src/async.ts) -/

/-- A structured JavaScript `Error`, identified by its message string. -/
structure JsError where
  message : String
deriving DecidableEq, Repr

/-- A value thrown by a JS operation: either already an `Error` instance, or
some other value, recorded by its textual representation `String(v)`. -/
inductive Thrown where
  | err : JsError → Thrown
  | nonError : String → Thrown
deriving DecidableEq, Repr

/-- The normalisation `error instanceof Error ? error : new Error(String(error))`
performed by `retry` (src/src/async.ts line 38). -/
def wrapError : Thrown → JsError
  | Thrown.err e => e
  | Thrown.nonError s => JsError.mk s

/-! ## Model of `retry` (src/src/async.ts lines 28-48)

The operation `fn` is modelled as a function from the 1-based attempt
number to its outcome on that invocation.  The observable behaviour of a
`retry` call is the pair of (a) the ordered log of effects it performs
(`fn` invocations, `onError` observer invocations, `sleep` delays) and
(b) its final outcome; a final outcome of `Except.error none` models the
`throw lastError!` of an uninitialised `lastError`, i.e. throwing the
JavaScript value `undefined`. -/

/-- One observable effect of a `retry` call. -/
inductive RetryEvent where
  | call (attempt : Nat)
  | observe (e : JsError) (attempt : Nat)
  | sleep (ms : Nat)
deriving DecidableEq, Repr

/-- The `for (let attempt = 1; attempt <= options.attempts; attempt++)` loop of
`retry`.  `k` is the number of iterations still to run (so the guard
`attempt < options.attempts` of the sleep is `k ≠ 1` at the head of an
iteration, i.e. `k ≠ 0` after peeling the current one), `attempt` is the
1-based attempt counter and `lastError` the current value of the
`lastError` local (none = still uninitialised). -/
def retryLoop (fn : Nat → Except Thrown T) (delayMs : Nat) (hasOnError : Bool) :
    Nat → Nat → Option JsError → List RetryEvent × Except (Option JsError) T
  | 0, _, lastError => ([], Except.error lastError)
  | k + 1, attempt, _ =>
    match fn attempt with
    | Except.ok v => ([RetryEvent.call attempt], Except.ok v)
    | Except.error t =>
      let e := wrapError t
      let obsEvents := if hasOnError then [RetryEvent.observe e attempt] else []
      let sleepEvents := if k = 0 then [] else [RetryEvent.sleep delayMs]
      let rest := retryLoop fn delayMs hasOnError k (attempt + 1) (some e)
      (RetryEvent.call attempt :: (obsEvents ++ (sleepEvents ++ rest.1)), rest.2)

/-- The `retry` function: `attempts` is the caller-supplied attempt budget (a
JS number, modelled as an integer); the loop from `attempt = 1` runs
`max attempts 0` iterations. -/
def retry (fn : Nat → Except Thrown T) (attempts : Int) (delayMs : Nat)
    (hasOnError : Bool) : List RetryEvent × Except (Option JsError) T :=
  retryLoop fn delayMs hasOnError attempts.toNat 1 none

/-- Projection extracting the attempt number of a `call` event. -/
def callAttempt : RetryEvent → Option Nat
  | RetryEvent.call a => some a
  | _ => none

/-- Projection extracting the payload of an observer invocation. -/
def observeData : RetryEvent → Option (JsError × Nat)
  | RetryEvent.observe e a => some (e, a)
  | _ => none

/-- Recogniser for delay events. -/
def isSleep : RetryEvent → Bool
  | RetryEvent.sleep _ => true
  | _ => false

/-- The effect log produced by `retry` when every attempt in `[a, a+k)` fails,
attempt `j` throwing `e j`: each failing attempt contributes its `call`, its
observer invocation (when an observer is supplied) and, except for the last
attempt, one `sleep`. -/
def failTrace (hasOnError : Bool) (e : Nat → Thrown) (d : Nat) : Nat → Nat → List RetryEvent
  | 0, _ => []
  | 1, a =>
    RetryEvent.call a ::
      (if hasOnError then [RetryEvent.observe (wrapError (e a)) a] else [])
  | k + 2, a =>
    RetryEvent.call a ::
      ((if hasOnError then [RetryEvent.observe (wrapError (e a)) a] else []) ++
        (RetryEvent.sleep d :: failTrace hasOnError e d (k + 1) (a + 1)))

/-! ## Model of `once` (src/src/fp.ts lines 93-104)

The wrapper's closure state is the `called` flag and the cached `result`
(uninitialised before the first call, hence `Option`).  A call sequence is
a list of argument values; running it yields the list of values returned
to each caller together with the log of arguments actually passed through
to the underlying function. -/

/-- The closure state captured by the `once` wrapper. -/
structure OnceState (β : Type v) where
  called : Bool
  result : Option β

/-- One call of the wrapper returned by `once fn`: returns the new closure
state, the value handed back to the caller, and the list (`[]` or a
singleton) of arguments with which the underlying `fn` was invoked. -/
def onceCall (fn : α → β) (s : OnceState β) (arg : α) :
    OnceState β × Option β × List α :=
  if s.called then (s, s.result, [])
  else ({ called := true, result := some (fn arg) }, some (fn arg), [arg])

/-- Runs a sequence of calls against the wrapper starting from closure state
`s`, collecting per-call return values and the log of underlying
invocations. -/
def onceRunFrom (fn : α → β) (s : OnceState β) : List α → List (Option β) × List α
  | [] => ([], [])
  | a :: rest =>
    let c := onceCall fn s a
    let r := onceRunFrom fn c.1 rest
    (c.2.1 :: r.1, c.2.2 ++ r.2)

/-- Runs a sequence of calls against a freshly created `once fn` wrapper. -/
def onceRun (fn : α → β) (calls : List α) : List (Option β) × List α :=
  onceRunFrom fn ⟨false, none⟩ calls

/-! ## Model of `shuffle` (src/src/collection.ts lines 117-124)

The source copies the input (`[...array]`) and runs a Fisher-Yates loop of
in-place swaps over the copy, so the input list itself is never mutated;
in this pure embedding the result is built from the input value and the
input is trivially untouched.  The random draw
`Math.floor(Math.random() * (i + 1))` at index `i` is modelled by an
arbitrary choice function `choices : Nat → Nat`, so the theorems quantify
over every possible sequence of random values. -/

/-- The destructuring swap `[result[i], result[j]] = [result[j], result[i]]`;
out-of-range indices leave the list unchanged (never hit by `shuffle`). -/
def swapIdx (l : List α) (i j : Nat) : List α :=
  match l[i]?, l[j]? with
  | some a, some b => (l.set i b).set j a
  | _, _ => l

/-- The `for (let i = result.length - 1; i > 0; i--)` loop of `shuffle`:
the second argument is the current loop index `i`; each iteration swaps
position `i` with the randomly chosen position `choices i ∈ [0, i]`. -/
def shuffleLoop (choices : Nat → Nat) : List α → Nat → List α
  | result, 0 => result
  | result, i + 1 => shuffleLoop choices (swapIdx result (i + 1) (choices (i + 1))) i

/-- The `shuffle` function. -/
def shuffle (choices : Nat → Nat) (array : List α) : List α :=
  shuffleLoop choices array (array.length - 1)

/-! ## Model of `roundTo` (src/src/math.ts lines 80-86)

JS numbers are modelled by exact rationals; `Number.isInteger q` is
`q.den = 1` and `Number.EPSILON` is exactly `2 ^ (-52)`.  The validation
guard on line 81 is `decimals < 0 || Number.isInteger(decimals)`, i.e. the
function throws when `decimals` IS an integer — `roundTo_throwGuard`
transcribes that line verbatim.  `roundToValue` is the computation of
lines 84-85 on the intended domain (a non-negative integer number of
decimals, where `10 ** decimals` is exact): `Math.round` rounds half
toward positive infinity, i.e. `⌊x + 1/2⌋`. -/

/-- Whether the `roundTo` of the source throws, exactly as line 81 is
written: `decimals < 0 || Number.isInteger(decimals)`. -/
def roundTo_throwGuard (decimals : ℚ) : Bool :=
  decide (decimals < 0) || decide (decimals.den = 1)

/-- JavaScript `Number.EPSILON`. -/
def jsEPSILON : ℚ := 1 / 2 ^ 52

/-- JavaScript `Math.round`: rounds to the nearest integer, ties toward
positive infinity. -/
def jsRound (x : ℚ) : ℤ := ⌊x + 1 / 2⌋

/-- The value `Math.round((n + Number.EPSILON) * factor) / factor` computed
by lines 84-85 of `roundTo` for a non-negative integer `decimals = d`,
where `factor = 10 ** d` is exact. -/
def roundToValue (n : ℚ) (d : Nat) : ℚ :=
  (jsRound ((n + jsEPSILON) * 10 ^ d) : ℚ) / 10 ^ d

/-! ## Model of JS objects and of `objectMap` / `deepMerge`
(src/unnamed/part_003 lines 20-44 and 185-199)

String-keyed JS objects are association lists in insertion order.
`setKey` is property assignment `obj[k] = v`: it overwrites the existing
entry in place (keeping its position) when the key is present and appends
otherwise. -/

/-- Property assignment `obj[k] = v` on an insertion-ordered record: when the
key is already present its entry is updated in place (keeping its
position), otherwise the new entry is appended — exactly JS object
insertion-order semantics.  (A well-formed JS object holds each key at
most once, so updating the first occurrence is exhaustive.) -/
def setKey : List (String × α) → String → α → List (String × α)
  | [], k, v => [(k, v)]
  | (k₀, v₀) :: rest, k, v =>
    if k₀ = k then (k, v) :: rest else (k₀, v₀) :: setKey rest k v

/-- Property lookup `obj[k]` on an insertion-ordered record. -/
def lookupEntry : List (String × α) → String → Option α
  | [], _ => none
  | (k', v) :: rest, k => if k' = k then some v else lookupEntry rest k

/-- The `objectMap` function: maps `fn` over the entries, drops entries
mapped to `undefined`, throws when two mapped entries share an output key
(detected by comparing the key-set size with the entry count), and
otherwise builds the result object by assigning each mapped entry in
order.  Keys are modelled as strings (`Object.entries` keys are strings;
the transform's output keys are property keys, taken here to be strings
as well). -/
def objectMap (obj : List (String × V)) (fn : String → V → Option (String × W)) :
    Except String (List (String × W)) :=
  let mappedEntries := obj.filterMap (fun e => fn e.1 e.2)
  if ((mappedEntries.map Prod.fst).dedup).length ≠ mappedEntries.length then
    Except.error "Duplicate keys detected in mapped object"
  else
    Except.ok (mappedEntries.foldl (fun acc e => setKey acc e.1 e.2) [])

/-- A JavaScript value as far as `deepMerge` can distinguish them: a plain
object (the only mergeable kind, per `isMergeableObject`), an array, or
any other (primitive-like) value, represented here by an integer. -/
inductive JVal where
  | num : Int → JVal
  | arr : List JVal → JVal
  | obj : List (String × JVal) → JVal

/-- The `isMergeableObject` helper: a plain object and not an array. -/
def isMergeableObject : JVal → Bool
  | JVal.obj _ => true
  | _ => false

mutual

/-- The `deepMerge` recursion: `deepMergeGo target output source` is the
`for (const key of Object.keys(source))` loop with `output` initially
`{...target}`; lookups of `target[key]` always refer to the original
target. -/
def deepMergeGo : List (String × JVal) → List (String × JVal) →
    List (String × JVal) → List (String × JVal)
  | _, output, [] => output
  | target, output, (k, sv) :: rest =>
    deepMergeGo target (setKey output k (deepMergeVal target k sv)) rest
termination_by _ _ s => sizeOf s

/-- The value the `deepMerge` loop assigns at key `k` when the source holds
`sv` there: when both the source value and the target value at that key
are plain objects they are merged recursively, otherwise the source value
replaces the target value wholesale. -/
def deepMergeVal (target : List (String × JVal)) (k : String) (sv : JVal) : JVal :=
  match sv, lookupEntry target k with
  | JVal.obj sObj, some (JVal.obj tObj) => JVal.obj (deepMergeGo tObj tObj sObj)
  | _, _ => sv
termination_by sizeOf sv

end

/-- The `deepMerge` function. -/
def deepMerge (target source : List (String × JVal)) : List (String × JVal) :=
  deepMergeGo target target source

/-! ## Model of `asyncPool` (src/src/async.ts lines 127-148)

`asyncPool` allocates `results` of the input's length, a shared cursor
`index`, and `min(concurrency, items.length)` copies of the `executor`
loop; each executor repeatedly claims `const currentIndex = index++`
(claim and increment are one synchronous step on the event loop) and,
after its worker call settles, writes `results[currentIndex]`, until the
cursor passes the end.  The cooperative scheduler is modelled by a
small-step relation: a state holds the cursor, one slot per executor
(`none` = at the loop head with nothing claimed, `some i` = claimed index
`i`, worker call in flight) and the result slots (`none` = still the
`undefined` of `Array.from`).  Any interleaving of executor steps is a
`PoolStep` trace, so completion order is fully nondeterministic; the
worker is modelled by the function `fn` giving the value its promise
resolves to for a given item and index. -/

/-- A scheduler state of one `asyncPool` call. -/
structure PoolState (R : Type) where
  cursor : Nat
  pending : List (Option Nat)
  results : List (Option R)

/-- The value an executor stores at slot `i`: the resolved value of
`fn(items[i], i)` (defined for every `i`; only in-range `i` are ever
claimed). -/
def poolVal (items : List T) (fn : T → Nat → R) (i : Nat) : Option R :=
  (items[i]?).map (fun x => fn x i)

/-- One scheduler step of an `asyncPool` run: executor `e` either claims the
next index (`currentIndex = index++`, possible only while the cursor is
in range) or finishes its in-flight worker call and writes that result
slot, returning to the loop head. -/
inductive PoolStep (items : List T) (fn : T → Nat → R) :
    PoolState R → PoolState R → Prop where
  | claim (s : PoolState R) (e : Nat) (he : s.pending[e]? = some none)
      (hc : s.cursor < items.length) :
      PoolStep items fn s
        ⟨s.cursor + 1, s.pending.set e (some s.cursor), s.results⟩
  | write (s : PoolState R) (e i : Nat) (he : s.pending[e]? = some (some i)) :
      PoolStep items fn s
        ⟨s.cursor, s.pending.set e none, s.results.set i (poolVal items fn i)⟩

/-- The state right after the synchronous prefix of `asyncPool`: cursor at 0,
`min(concurrency, items.length)` idle executors (`Array.from` on a
negative or zero length yields no executors), and all result slots
`undefined`. -/
def poolInit (R : Type) (C : Int) (items : List T) : PoolState R :=
  ⟨0, List.replicate (min C (items.length : Int)).toNat none,
    List.replicate items.length none⟩

/-- The states an `asyncPool` call with concurrency `C` can be in. -/
def PoolReachable (C : Int) (items : List T) (fn : T → Nat → R)
    (s : PoolState R) : Prop :=
  Relation.ReflTransGen (PoolStep items fn) (poolInit R C items) s

/-- A completed run: every executor is at its loop head with nothing in
flight, and (unless there are no executors at all) the cursor has passed
the end, which is the only way an executor's `while` loop exits. -/
def PoolFinal (items : List T) (s : PoolState R) : Prop :=
  (∀ p ∈ s.pending, p = none) ∧ (s.pending = [] ∨ items.length ≤ s.cursor)

/-- The run invariant: results keep the input's length, the cursor never
passes the end by more than the claims made, the executor count is fixed,
claimed indices lie below the cursor, and every index below the cursor is
either still in flight with some executor or already carries its worker's
resolved value. -/
def PoolInv (C : Int) (items : List T) (fn : T → Nat → R) (s : PoolState R) : Prop :=
  s.results.length = items.length ∧
    s.cursor ≤ items.length ∧
    s.pending.length = (min C (items.length : Int)).toNat ∧
    (∀ i, some i ∈ s.pending → i < s.cursor) ∧
    (∀ i, i < s.cursor → some i ∈ s.pending ∨
      ∃ x, items[i]? = some x ∧ s.results[i]? = some (some (fn x i)))

/-- The number of in-flight worker calls. -/
def countSome (l : List (Option α)) : Nat := (l.filterMap id).length

/-- A termination measure for `asyncPool` runs: strictly decreases on every
scheduler step. -/
def poolMeasure (items : List T) (s : PoolState R) : Nat :=
  2 * (items.length - s.cursor) + countSome s.pending

/-! ## Theorems about `retry` -/

theorem retryLoop_allFail (fn : Nat → Except Thrown T) (e : Nat → Thrown)
    (d : Nat) (ob : Bool) (hf : ∀ j, fn j = Except.error (e j)) :
    ∀ k a last, retryLoop fn d ob (k + 1) a last =
      (failTrace ob e d (k + 1) a, Except.error (some (wrapError (e (a + k))))) := by
  intro k
  induction k with
  | zero =>
    intro a last
    simp [retryLoop, hf a, failTrace]
  | succ k ih =>
    intro a last
    have : retryLoop fn d ob (k + 1 + 1) a last =
        (RetryEvent.call a ::
          ((if ob then [RetryEvent.observe (wrapError (e a)) a] else []) ++
            (RetryEvent.sleep d :: (retryLoop fn d ob (k + 1) (a + 1) (some (wrapError (e a)))).1)),
          (retryLoop fn d ob (k + 1) (a + 1) (some (wrapError (e a)))).2) := by
      simp [retryLoop, hf a]
    rw [this, ih (a + 1)]
    have harith : a + 1 + k = a + (k + 1) := by omega
    simp [failTrace, harith]

theorem failTrace_calls (e : Nat → Thrown) (d : Nat) (ob : Bool) :
    ∀ k a, (failTrace ob e d k a).filterMap callAttempt = List.range' a k := by
  intro k
  induction k with
  | zero => intro a; simp [failTrace]
  | succ k ih =>
    intro a
    match k, ih with
    | 0, _ =>
      cases ob <;> simp [failTrace, callAttempt, List.range']
    | k + 1, ih =>
      have := ih (a + 1)
      cases ob <;>
        simp_all [failTrace, callAttempt, List.range']

theorem failTrace_observes (e : Nat → Thrown) (d : Nat) :
    ∀ k a, (failTrace true e d k a).filterMap observeData =
      (List.range' a k).map (fun j => (wrapError (e j), j)) := by
  intro k
  induction k with
  | zero => intro a; simp [failTrace]
  | succ k ih =>
    intro a
    match k, ih with
    | 0, _ => simp [failTrace, observeData, callAttempt, List.range']
    | k + 1, ih =>
      have := ih (a + 1)
      simp_all [failTrace, observeData, callAttempt, List.range']

theorem failTrace_sleeps (e : Nat → Thrown) (d : Nat) (ob : Bool) :
    ∀ k a, ((failTrace ob e d k a).filter isSleep).length = k - 1 := by
  intro k
  induction k with
  | zero => intro a; simp [failTrace]
  | succ k ih =>
    intro a
    match k, ih with
    | 0, _ => cases ob <;> simp [failTrace, isSleep]
    | k + 1, ih =>
      have := ih (a + 1)
      cases ob <;> simp_all [failTrace, isSleep]

theorem failTrace_last (e : Nat → Thrown) (d : Nat) :
    ∀ k a, (failTrace true e d (k + 1) a).getLast? =
      some (RetryEvent.observe (wrapError (e (a + k))) (a + k)) := by
  intro k
  induction k with
  | zero => intro a; simp [failTrace]
  | succ k ih =>
    intro a
    have := ih (a + 1)
    have harith : a + 1 + k = a + (k + 1) := by omega
    rw [harith] at this
    simp only [failTrace, List.getLast?_cons, if_pos rfl]
    simp_all [List.getLast?_cons]

/-- C3: with `attempts = N ≥ 1` and an operation failing on every attempt,
`retry` invokes the operation exactly `N` times with attempt numbers
`1..N` in increasing order, invokes the supplied observer exactly `N`
times in the same order with the wrapped failures, performs exactly
`N - 1` delays — never after the final attempt, whose observer invocation
is the very last event — and finally propagates the last wrapped failure.
The call/sleep/result facts hold whether or not an observer is supplied. -/
theorem retry_allFail (fn : Nat → Except Thrown T) (e : Nat → Thrown)
    (N : Nat) (d : Nat) (hN : 1 ≤ N) (hf : ∀ j, fn j = Except.error (e j)) :
    ∀ ob : Bool,
      ((retry fn (N : Int) d ob).1.filterMap callAttempt = List.range' 1 N ∧
        ((retry fn (N : Int) d ob).1.filter isSleep).length = N - 1 ∧
        (retry fn (N : Int) d ob).2 = Except.error (some (wrapError (e N)))) ∧
      ((retry fn (N : Int) d true).1.filterMap observeData =
          (List.range' 1 N).map (fun j => (wrapError (e j), j)) ∧
        (retry fn (N : Int) d true).1.getLast? =
          some (RetryEvent.observe (wrapError (e N)) N)) := by
  intro ob
  obtain ⟨k, rfl⟩ : ∃ k, N = k + 1 := ⟨N - 1, by omega⟩
  have htoNat : ((k : Int) + 1).toNat = k + 1 := by omega
  have hrun : ∀ b : Bool, retry fn ((k : Int) + 1) d b =
      (failTrace b e d (k + 1) 1, Except.error (some (wrapError (e (1 + k))))) := by
    intro b
    unfold retry
    rw [htoNat]
    exact retryLoop_allFail fn e d b hf k 1 none
  have h1k : 1 + k = k + 1 := by omega
  refine ⟨⟨?_, ?_, ?_⟩, ?_, ?_⟩
  · rw [show ((k + 1 : Nat) : Int) = (k : Int) + 1 by push_cast; ring, hrun ob]
    exact failTrace_calls e d ob (k + 1) 1
  · rw [show ((k + 1 : Nat) : Int) = (k : Int) + 1 by push_cast; ring, hrun ob]
    simp [failTrace_sleeps e d ob (k + 1) 1]
  · rw [show ((k + 1 : Nat) : Int) = (k : Int) + 1 by push_cast; ring, hrun ob, h1k]
  · rw [show ((k + 1 : Nat) : Int) = (k : Int) + 1 by push_cast; ring, hrun true]
    rw [failTrace_observes e d (k + 1) 1]
  · rw [show ((k + 1 : Nat) : Int) = (k : Int) + 1 by push_cast; ring, hrun true]
    rw [failTrace_last e d k 1, h1k]

theorem retryLoop_observe_mem (fn : Nat → Except Thrown T) (d : Nat) (ob : Bool) :
    ∀ k a last x j, RetryEvent.observe x j ∈ (retryLoop fn d ob k a last).1 →
      ∃ t, fn j = Except.error t ∧ x = wrapError t := by
  intro k
  induction k with
  | zero => intro a last x j h; simp [retryLoop] at h
  | succ k ih =>
    intro a last x j h
    rcases hfn : fn a with t | v
    · simp [retryLoop, hfn] at h
      rcases h with ⟨_, hx, hj⟩ | h
      · exact ⟨t, by rw [hj, hfn], hx⟩
      · exact ih (a + 1) (some (wrapError t)) x j h
    · simp [retryLoop, hfn] at h

theorem retryLoop_error_result (fn : Nat → Except Thrown T) (d : Nat) (ob : Bool) :
    ∀ k a last x, (retryLoop fn d ob k a last).2 = Except.error (some x) →
      (∃ j t, fn j = Except.error t ∧ x = wrapError t) ∨ last = some x := by
  intro k
  induction k with
  | zero =>
    intro a last x h
    simp [retryLoop] at h
    exact Or.inr h
  | succ k ih =>
    intro a last x h
    rcases hfn : fn a with t | v
    · simp only [retryLoop, hfn] at h
      rcases ih (a + 1) (some (wrapError t)) x h with h' | h'
      · exact Or.inl h'
      · exact Or.inl ⟨a, t, hfn, by simpa using h'.symm⟩
    · simp [retryLoop, hfn] at h

/-- C4: every failure the operation raises inside `retry` is normalised by
`wrapError` before being observed or propagated: a non-`Error` value is
wrapped into a structured error carrying its textual representation, an
`Error` value is passed through unchanged, every observer invocation
receives exactly the wrapped form of a failure the operation raised on
that attempt, and a final structured failure is always the wrapped form
of a failure the operation raised. -/
theorem retry_wrapsFailures (fn : Nat → Except Thrown T) (attempts : Int)
    (d : Nat) (ob : Bool) :
    (∀ x j, RetryEvent.observe x j ∈ (retry fn attempts d ob).1 →
        ∃ t, fn j = Except.error t ∧ x = wrapError t) ∧
      (∀ x, (retry fn attempts d ob).2 = Except.error (some x) →
        ∃ j t, fn j = Except.error t ∧ x = wrapError t) ∧
      (∀ s, wrapError (Thrown.nonError s) = JsError.mk s) ∧
      (∀ e, wrapError (Thrown.err e) = e) := by
  refine ⟨?_, ?_, fun _ => rfl, fun _ => rfl⟩
  · intro x j h
    exact retryLoop_observe_mem fn d ob attempts.toNat 1 none x j h
  · intro x h
    rcases retryLoop_error_result fn d ob attempts.toNat 1 none x h with h' | h'
    · exact h'
    · exact absurd h' (by simp)

/-- Witness for `retry_wrapsFailures`: one attempt throwing the non-`Error`
value `"42"`; the observer invocation on attempt 1 carries the structured
error wrapping that textual representation. -/
theorem retry_wrapsFailures_witness :
    RetryEvent.observe (JsError.mk "42") 1 ∈
        (retry (T := Nat) (fun _ => Except.error (Thrown.nonError "42")) 1 0 true).1 ∧
      ∃ t, (fun _ => Except.error (Thrown.nonError "42") : Nat → Except Thrown Nat) 1 =
          Except.error t ∧ JsError.mk "42" = wrapError t :=
  ⟨by decide,
    (retry_wrapsFailures (fun _ => Except.error (Thrown.nonError "42")) 1 0 true).1
      (JsError.mk "42") 1 (by decide)⟩

/-- C9: a `retry` call with `attempts ≤ 0` never invokes the operation, the
observer or the delay (its effect log is empty) and rejects by throwing the
uninitialised `lastError`, i.e. the JavaScript value `undefined` (modelled
`none`), which is not a structured error. -/
theorem retry_nonpositiveAttempts (fn : Nat → Except Thrown T) (attempts : Int)
    (d : Nat) (ob : Bool) (h : attempts ≤ 0) :
    retry fn attempts d ob = ([], Except.error none) := by
  unfold retry
  rw [Int.toNat_of_nonpos h]
  rfl

/-- Witness for `retry_nonpositiveAttempts` at `attempts = -1`. -/
theorem retry_nonpositiveAttempts_witness :
    retry (T := Nat) (fun _ => Except.ok 5) (-1) 9 true = ([], Except.error none) :=
  retry_nonpositiveAttempts (fun _ => Except.ok 5) (-1) 9 true (by decide)

/-- Witness for `retry_allFail` at `N = 3` with an operation that always
throws the non-`Error` string value `"boom j"` on attempt `j`. -/
theorem retry_allFail_witness :
    ((retry (T := Nat) (fun j => Except.error (Thrown.nonError ("boom " ++ toString j)))
        (3 : Int) 7 true).1.filterMap callAttempt = List.range' 1 3 ∧
      ((retry (T := Nat) (fun j => Except.error (Thrown.nonError ("boom " ++ toString j)))
        (3 : Int) 7 true).1.filter isSleep).length = 3 - 1 ∧
      (retry (T := Nat) (fun j => Except.error (Thrown.nonError ("boom " ++ toString j)))
        (3 : Int) 7 true).2 =
        Except.error (some (wrapError (Thrown.nonError "boom 3")))) ∧
    ((retry (T := Nat) (fun j => Except.error (Thrown.nonError ("boom " ++ toString j)))
        (3 : Int) 7 true).1.filterMap observeData =
        (List.range' 1 3).map
          (fun j => (wrapError (Thrown.nonError ("boom " ++ toString j)), j)) ∧
      (retry (T := Nat) (fun j => Except.error (Thrown.nonError ("boom " ++ toString j)))
        (3 : Int) 7 true).1.getLast? =
        some (RetryEvent.observe (wrapError (Thrown.nonError "boom 3")) 3)) :=
  retry_allFail (fun j => Except.error (Thrown.nonError ("boom " ++ toString j)))
    (fun j => Thrown.nonError ("boom " ++ toString j)) 3 7 (by decide)
    (fun _ => rfl) true

/-! ## Theorems about `roundTo` -/

/-- C5: the claim says `roundTo` raises exactly when `decimals` is negative
or not an integer, and returns the rounded value for every non-negative
integer `decimals`; the code does the opposite, because the guard on
line 81 tests `Number.isInteger(decimals)` instead of its negation.  At
the failing input `roundTo(3.14159, 2)` the guard fires (the call throws
`decimals must be a non-negative integer`) even though `2` is a
non-negative integer and the function's own doc example promises the
result `3.14` — which is exactly what the computation of lines 84-85,
`roundToValue`, yields (`157/50 = 3.14`).  Conversely the guard does not
fire on the invalid non-integer input `2.5`.  The code contradicts its
own documentation; the claim matches the intent, so this is a code bug. -/
theorem roundTo_guardInverted :
    roundTo_throwGuard 2 = true ∧ roundTo_throwGuard (-1) = true ∧
      roundTo_throwGuard (5 / 2) = false ∧
      roundToValue (314159 / 100000) 2 = 157 / 50 := by
  refine ⟨?_, ?_, ?_, ?_⟩ <;>
    norm_num [roundTo_throwGuard, roundToValue, jsRound, jsEPSILON]

/-! ## Theorems about `objectMap` and `deepMerge` -/

theorem lookupEntry_eq_none_iff (k : String) :
    ∀ l : List (String × α), lookupEntry l k = none ↔ k ∉ l.map Prod.fst := by
  intro l
  induction l with
  | nil => simp [lookupEntry]
  | cons e t ih =>
    obtain ⟨k₀, v₀⟩ := e
    by_cases h : k₀ = k
    · subst h
      simp [lookupEntry]
    · simp [lookupEntry, h, ih, Ne.symm h]

theorem lookupEntry_setKey (k : String) (v : α) :
    ∀ (l : List (String × α)) (k' : String),
      lookupEntry (setKey l k v) k' = if k' = k then some v else lookupEntry l k' := by
  intro l
  induction l with
  | nil =>
    intro k'
    by_cases h : k' = k
    · subst h; simp [setKey, lookupEntry]
    · simp [setKey, lookupEntry, h, Ne.symm h]
  | cons e rest ih =>
    obtain ⟨k₀, v₀⟩ := e
    intro k'
    by_cases h₀ : k₀ = k
    · subst h₀
      by_cases h : k' = k₀
      · subst h; simp [setKey, lookupEntry]
      · simp [setKey, lookupEntry, h, Ne.symm h]
    · by_cases h₁ : k₀ = k'
      · subst h₁
        simp [setKey, lookupEntry, h₀]
      · simp [setKey, lookupEntry, h₀, h₁, ih k']

theorem setKey_absent (k : String) (v : α) :
    ∀ l : List (String × α), k ∉ l.map Prod.fst → setKey l k v = l ++ [(k, v)] := by
  intro l
  induction l with
  | nil => intro _; rfl
  | cons e rest ih =>
    obtain ⟨k₀, v₀⟩ := e
    intro h
    simp only [List.map_cons, List.mem_cons, not_or] at h
    have h0 : ¬k₀ = k := fun hh => h.1 hh.symm
    simp [setKey, h0, ih h.2]

theorem foldl_setKey_nodup :
    ∀ (l acc : List (String × α)), (l.map Prod.fst).Nodup →
      (∀ k, k ∈ l.map Prod.fst → k ∉ acc.map Prod.fst) →
      l.foldl (fun acc e => setKey acc e.1 e.2) acc = acc ++ l := by
  intro l
  induction l with
  | nil => intro acc _ _; simp
  | cons e rest ih =>
    obtain ⟨k, v⟩ := e
    intro acc hnd hdisj
    rw [List.map_cons] at hnd
    have hnd' := List.nodup_cons.mp hnd
    have hk_acc : k ∉ acc.map Prod.fst := hdisj k (by simp)
    have hset : setKey acc k v = acc ++ [(k, v)] := setKey_absent k v acc hk_acc
    have hrec := ih (acc ++ [(k, v)]) hnd'.2 (by
      intro k' hk'
      have hne : k' ≠ k := by
        intro hh
        subst hh
        exact hnd'.1 hk'
      have hacc : k' ∉ acc.map Prod.fst := hdisj k' (by simp [hk'])
      simp [hacc, hne])
    simp only [List.foldl_cons, hset, hrec]
    simp


/-- C6: `objectMap` throws the duplicate-key error, returning no object at
all, exactly when the transformed entries (those not mapped to
`undefined`) contain two entries with the same output key; otherwise it
returns the object made of exactly the transformed entries, in order. -/
theorem objectMap_spec (obj : List (String × V))
    (fn : String → V → Option (String × W)) :
    (¬ ((obj.filterMap (fun e => fn e.1 e.2)).map Prod.fst).Nodup →
        objectMap obj fn = Except.error "Duplicate keys detected in mapped object") ∧
      (((obj.filterMap (fun e => fn e.1 e.2)).map Prod.fst).Nodup →
        objectMap obj fn = Except.ok (obj.filterMap (fun e => fn e.1 e.2))) := by
  constructor
  · intro hdup
    rw [objectMap, if_pos]
    intro hlen
    apply hdup
    have hsub : ((obj.filterMap (fun e => fn e.1 e.2)).map Prod.fst).dedup.Sublist
        ((obj.filterMap (fun e => fn e.1 e.2)).map Prod.fst) :=
      List.dedup_sublist _
    have hlen' : ((obj.filterMap (fun e => fn e.1 e.2)).map Prod.fst).dedup.length =
        ((obj.filterMap (fun e => fn e.1 e.2)).map Prod.fst).length := by
      simpa using hlen
    have := hsub.eq_of_length hlen'
    exact List.dedup_eq_self.mp this
  · intro hnd
    rw [objectMap, if_neg]
    · rw [foldl_setKey_nodup _ [] hnd (by simp)]
      simp
    · simp only [ne_eq, Decidable.not_not]
      rw [List.dedup_eq_self.mpr hnd]
      simp

/-- Witness for `objectMap_spec`: a transform producing distinct output keys
yields exactly the transformed entries. -/
theorem objectMap_spec_witness :
    objectMap [("a", 1), ("b", 2)]
        (fun k v => some (k ++ "x", v * 2)) =
      Except.ok [("ax", 2), ("bx", 4)] := by
  have h := (objectMap_spec [("a", (1 : Nat)), ("b", 2)]
    (fun k v => some (k ++ "x", v * 2))).2 (by decide)
  simpa using h

theorem deepMergeGo_lookup (target : List (String × JVal)) :
    ∀ source : List (String × JVal), (source.map Prod.fst).Nodup →
      ∀ (output : List (String × JVal)) (k : String),
        lookupEntry (deepMergeGo target output source) k =
          match lookupEntry source k with
          | some sv => some (deepMergeVal target k sv)
          | none => lookupEntry output k := by
  intro source
  induction source with
  | nil => intro _ output k; simp [deepMergeGo, lookupEntry]
  | cons e rest ih =>
    obtain ⟨k₀, sv⟩ := e
    intro hnd output k
    have hstep : deepMergeGo target output ((k₀, sv) :: rest) =
        deepMergeGo target (setKey output k₀ (deepMergeVal target k₀ sv)) rest := by
      rw [deepMergeGo]
    rw [hstep, ih (List.nodup_cons.mp (by simpa using hnd)).2]
    by_cases hk : k₀ = k
    · subst hk
      have hrest : lookupEntry rest k₀ = none := by
        rw [lookupEntry_eq_none_iff]
        exact (List.nodup_cons.mp (by simpa using hnd)).1
      simp [lookupEntry, hrest, lookupEntry_setKey]
    · have hne : ¬k = k₀ := fun h => hk h.symm
      simp only [lookupEntry, if_neg hk]
      rcases hrest : lookupEntry rest k with _ | sv'
      · simp [lookupEntry_setKey, hne]
      · rfl

/-- C7: `deepMerge` merges a key recursively exactly when both sides hold a
plain object there and otherwise lets the source value (array or any
other non-plain-object value included) replace the target value
wholesale, keys absent from the source keeping their target value; and on
the spec's example, `deepMerge {a:1, b:{c:2}} {b:{d:3}, e:4}` equals
`{a:1, b:{c:2, d:3}, e:4}`. -/
theorem deepMerge_spec (t s : List (String × JVal))
    (hs : (s.map Prod.fst).Nodup) :
    (∀ k sv, lookupEntry s k = some sv →
        lookupEntry (deepMerge t s) k = some (deepMergeVal t k sv)) ∧
      (∀ k, lookupEntry s k = none →
        lookupEntry (deepMerge t s) k = lookupEntry t k) ∧
      deepMerge
          [("a", JVal.num 1), ("b", JVal.obj [("c", JVal.num 2)])]
          [("b", JVal.obj [("d", JVal.num 3)]), ("e", JVal.num 4)] =
        [("a", JVal.num 1),
          ("b", JVal.obj [("c", JVal.num 2), ("d", JVal.num 3)]),
          ("e", JVal.num 4)] := by
  refine ⟨?_, ?_, ?_⟩
  · intro k sv hlook
    rw [deepMerge, deepMergeGo_lookup t s hs t k, hlook]
  · intro k hlook
    rw [deepMerge, deepMergeGo_lookup t s hs t k, hlook]
  · simp [deepMerge, deepMergeGo, deepMergeVal, setKey, lookupEntry]

/-- Witness for `deepMerge_spec`: the spec's concrete example. -/
theorem deepMerge_spec_witness :
    deepMerge
        [("a", JVal.num 1), ("b", JVal.obj [("c", JVal.num 2)])]
        [("b", JVal.obj [("d", JVal.num 3)]), ("e", JVal.num 4)] =
      [("a", JVal.num 1),
        ("b", JVal.obj [("c", JVal.num 2), ("d", JVal.num 3)]),
        ("e", JVal.num 4)] :=
  (deepMerge_spec [("a", JVal.num 1), ("b", JVal.obj [("c", JVal.num 2)])]
    [("b", JVal.obj [("d", JVal.num 3)]), ("e", JVal.num 4)] (by simp)).2.2

/-! ## Theorems about `once` and `shuffle` -/

theorem onceRunFrom_called (fn : α → β) (r : β) :
    ∀ calls : List α, onceRunFrom fn ⟨true, some r⟩ calls =
      (calls.map (fun _ => some r), []) := by
  intro calls
  induction calls with
  | nil => rfl
  | cons a rest ih => simp [onceRunFrom, onceCall, ih]

/-- C10: across any sequence of calls to a `once fn` wrapper, the underlying
function is invoked at most once — on the first call, with the first
call's argument — and every call returns the first call's cached result,
the arguments of the later calls being ignored. -/
theorem once_spec (fn : α → β) (calls : List α) :
    onceRun fn calls =
      match calls with
      | [] => ([], [])
      | a :: rest => (some (fn a) :: rest.map (fun _ => some (fn a)), [a]) := by
  cases calls with
  | nil => rfl
  | cons a rest =>
    simp [onceRun, onceRunFrom, onceCall, onceRunFrom_called]

theorem perm_cons_set (a : α) :
    ∀ (t : List α) (m : Nat) (b : α), t[m]? = some b →
      List.Perm (b :: t.set m a) (a :: t) := by
  intro t
  induction t with
  | nil => intro m b h; simp at h
  | cons c s ih =>
    intro m b h
    cases m with
    | zero =>
      simp only [List.getElem?_cons_zero, Option.some.injEq] at h
      subst h
      simp only [List.set_cons_zero]
      exact List.Perm.swap a c s
    | succ m =>
      simp only [List.getElem?_cons_succ] at h
      simp only [List.set_cons_succ]
      exact List.Perm.trans (List.Perm.swap c b (s.set m a))
        (List.Perm.trans (List.Perm.cons c (ih m b h)) (List.Perm.swap a c s))

theorem perm_set_set :
    ∀ (l : List α) (i j : Nat) (a b : α), l[i]? = some a → l[j]? = some b →
      List.Perm ((l.set i b).set j a) l := by
  intro l
  induction l with
  | nil => intro i j a b hi hj; simp at hi
  | cons c t ih =>
    intro i j a b hi hj
    cases i with
    | zero =>
      cases j with
      | zero =>
        simp only [List.getElem?_cons_zero, Option.some.injEq] at hi hj
        subst hi; subst hj
        simp only [List.set_cons_zero]
        exact List.Perm.refl _
      | succ m =>
        simp only [List.getElem?_cons_zero, Option.some.injEq] at hi
        simp only [List.getElem?_cons_succ] at hj
        subst hi
        simp only [List.set_cons_zero, List.set_cons_succ]
        exact perm_cons_set c t m b hj
    | succ n =>
      cases j with
      | zero =>
        simp only [List.getElem?_cons_succ] at hi
        simp only [List.getElem?_cons_zero, Option.some.injEq] at hj
        subst hj
        simp only [List.set_cons_zero, List.set_cons_succ]
        exact perm_cons_set c t n a hi
      | succ m =>
        simp only [List.getElem?_cons_succ] at hi hj
        simp only [List.set_cons_succ]
        exact List.Perm.cons c (ih n m a b hi hj)

theorem swapIdx_perm (l : List α) (i j : Nat) : List.Perm (swapIdx l i j) l := by
  unfold swapIdx
  rcases hi : l[i]? with _ | a
  · simp
  · rcases hj : l[j]? with _ | b
    · simp
    · exact perm_set_set l i j a b hi hj

theorem shuffleLoop_perm (choices : Nat → Nat) :
    ∀ (n : Nat) (l : List α), List.Perm (shuffleLoop choices l n) l := by
  intro n
  induction n with
  | zero => intro l; exact List.Perm.refl l
  | succ n ih =>
    intro l
    exact List.Perm.trans (ih (swapIdx l (n + 1) (choices (n + 1))))
      (swapIdx_perm l (n + 1) (choices (n + 1)))

/-- C8: for every input list and every sequence of random choices, `shuffle`
returns a permutation of the input (the same multiset of elements); the
input itself is copied before the Fisher-Yates swaps, so its own element
order is untouched, which in this pure embedding is immediate since the
result is a fresh list built from the input value. -/
theorem shuffle_perm (choices : Nat → Nat) (array : List α) :
    List.Perm (shuffle choices array) array :=
  shuffleLoop_perm choices (array.length - 1) array

/-! ## Theorems about `asyncPool` -/

theorem optGet_set_self : ∀ (l : List α) (e : Nat) (v : α), e < l.length →
    (l.set e v)[e]? = some v := by
  intro l
  induction l with
  | nil => intro e v h; simp at h
  | cons c t ih =>
    intro e v h
    cases e with
    | zero => simp [List.set_cons_zero]
    | succ e =>
      simp only [List.set_cons_succ, List.getElem?_cons_succ]
      exact ih e v (by simpa using h)

theorem optGet_set_ne : ∀ (l : List α) (e j : Nat) (v : α), j ≠ e →
    (l.set e v)[j]? = l[j]? := by
  intro l
  induction l with
  | nil => intro e j v _; simp
  | cons c t ih =>
    intro e j v h
    cases e with
    | zero =>
      cases j with
      | zero => exact absurd rfl h
      | succ j => simp [List.set_cons_zero]
    | succ e =>
      cases j with
      | zero => simp [List.set_cons_succ]
      | succ j =>
        simp only [List.set_cons_succ, List.getElem?_cons_succ]
        exact ih e j v (fun hh => h (by omega))

theorem mem_of_optGet : ∀ (l : List α) (n : Nat) (a : α), l[n]? = some a → a ∈ l := by
  intro l
  induction l with
  | nil => intro n a h; simp at h
  | cons c t ih =>
    intro n a h
    cases n with
    | zero =>
      simp only [List.getElem?_cons_zero, Option.some.injEq] at h
      exact h ▸ List.mem_cons_self c t
    | succ n =>
      simp only [List.getElem?_cons_succ] at h
      exact List.mem_cons_of_mem c (ih n a h)

theorem optGet_of_mem : ∀ (l : List α) (a : α), a ∈ l → ∃ n : Nat, l[n]? = some a := by
  intro l
  induction l with
  | nil => intro a h; simp at h
  | cons c t ih =>
    intro a h
    rcases List.mem_cons.mp h with rfl | h
    · exact ⟨0, by simp⟩
    · obtain ⟨n, hn⟩ := ih a h
      exact ⟨n + 1, by simpa using hn⟩

theorem lt_length_of_optGet : ∀ (l : List α) (n : Nat) (a : α),
    l[n]? = some a → n < l.length := by
  intro l
  induction l with
  | nil => intro n a h; simp at h
  | cons c t ih =>
    intro n a h
    cases n with
    | zero => simp
    | succ n =>
      simp only [List.getElem?_cons_succ] at h
      have := ih n a h
      simpa using Nat.succ_lt_succ this

theorem optGet_lt : ∀ (l : List α) (i : Nat), i < l.length → ∃ a, l[i]? = some a := by
  intro l
  induction l with
  | nil => intro i h; simp at h
  | cons c t ih =>
    intro i h
    cases i with
    | zero => exact ⟨c, by simp⟩
    | succ i =>
      obtain ⟨a, ha⟩ := ih i (by simpa using h)
      exact ⟨a, by simpa using ha⟩

theorem set_self_mem : ∀ (l : List α) (e : Nat) (v : α), e < l.length →
    v ∈ l.set e v := by
  intro l
  induction l with
  | nil => intro e v h; simp at h
  | cons c t ih =>
    intro e v h
    cases e with
    | zero => simp [List.set_cons_zero]
    | succ e =>
      simp only [List.set_cons_succ]
      exact List.mem_cons_of_mem c (ih e v (by simpa using h))

theorem mem_set_of_ne : ∀ (l : List α) (e : Nat) (v a b : α),
    a ∈ l → l[e]? = some b → a ≠ b → a ∈ l.set e v := by
  intro l
  induction l with
  | nil => intro e v a b h _ _; simp at h
  | cons c t ih =>
    intro e v a b hmem he hne
    cases e with
    | zero =>
      simp only [List.getElem?_cons_zero, Option.some.injEq] at he
      subst he
      rcases List.mem_cons.mp hmem with rfl | h
      · exact absurd rfl hne
      · exact List.mem_cons_of_mem v (by simpa [List.set_cons_zero] using h)
    | succ e =>
      simp only [List.getElem?_cons_succ] at he
      simp only [List.set_cons_succ]
      rcases List.mem_cons.mp hmem with rfl | h
      · exact List.mem_cons_self a _
      · exact List.mem_cons_of_mem c (ih e v a b h he hne)

theorem mem_set_or_eq_get : ∀ (l : List α) (e : Nat) (v a : α),
    a ∈ l → a ∈ l.set e v ∨ l[e]? = some a := by
  intro l
  induction l with
  | nil => intro e v a h; simp at h
  | cons c t ih =>
    intro e v a hmem
    cases e with
    | zero =>
      rcases List.mem_cons.mp hmem with rfl | h
      · exact Or.inr (by simp)
      · exact Or.inl (List.mem_cons_of_mem v (by simpa [List.set_cons_zero] using h))
    | succ e =>
      simp only [List.set_cons_succ, List.getElem?_cons_succ]
      rcases List.mem_cons.mp hmem with rfl | h
      · exact Or.inl (List.mem_cons_self a _)
      · rcases ih e v a h with h' | h'
        · exact Or.inl (List.mem_cons_of_mem c h')
        · exact Or.inr h'

theorem countSome_set_some : ∀ (l : List (Option α)) (e : Nat) (v : α),
    l[e]? = some none → countSome (l.set e (some v)) = countSome l + 1 := by
  intro l
  induction l with
  | nil => intro e v h; simp at h
  | cons c t ih =>
    intro e v h
    cases e with
    | zero =>
      simp only [List.getElem?_cons_zero, Option.some.injEq] at h
      subst h
      simp [List.set_cons_zero, countSome]
    | succ e =>
      simp only [List.getElem?_cons_succ] at h
      have := ih e v h
      cases c with
      | none => simpa [List.set_cons_succ, countSome] using this
      | some w => simpa [List.set_cons_succ, countSome] using this

theorem countSome_set_none : ∀ (l : List (Option α)) (e : Nat) (i : α),
    l[e]? = some (some i) → countSome l = countSome (l.set e none) + 1 := by
  intro l
  induction l with
  | nil => intro e i h; simp at h
  | cons c t ih =>
    intro e i h
    cases e with
    | zero =>
      simp only [List.getElem?_cons_zero, Option.some.injEq] at h
      subst h
      simp [List.set_cons_zero, countSome]
    | succ e =>
      simp only [List.getElem?_cons_succ] at h
      have := ih e i h
      cases c with
      | none => simpa [List.set_cons_succ, countSome] using this
      | some w => simpa [List.set_cons_succ, countSome] using this

theorem poolInv_init (C : Int) (items : List T) (fn : T → Nat → R) :
    PoolInv C items fn (poolInit R C items) := by
  refine ⟨by simp [poolInit], by simp [poolInit], by simp [poolInit], ?_, ?_⟩
  · intro i hi
    have hi' : (some i : Option Nat) ∈ List.replicate (min C (items.length : Int)).toNat none := hi
    exact Option.noConfusion (List.eq_of_mem_replicate hi')
  · intro i hi
    have hi' : i < 0 := hi
    omega

theorem poolInv_step (C : Int) (items : List T) (fn : T → Nat → R)
    (s s' : PoolState R) (hinv : PoolInv C items fn s)
    (hstep : PoolStep items fn s s') : PoolInv C items fn s' := by
  obtain ⟨h1, h2, h3, h4, h5⟩ := hinv
  cases hstep with
  | claim e he hc =>
    refine ⟨h1, ?_, ?_, ?_, ?_⟩
    · show s.cursor + 1 ≤ items.length
      omega
    · show (s.pending.set e (some s.cursor)).length = (min C (items.length : Int)).toNat
      rw [List.length_set]
      exact h3
    · intro i hi
      show i < s.cursor + 1
      rcases List.mem_or_eq_of_mem_set hi with hm | heq
      · exact Nat.lt_succ_of_lt (h4 i hm)
      · have : i = s.cursor := Option.some.inj heq
        omega
    · intro i hi
      have hi1 : i < s.cursor + 1 := hi
      by_cases hic : i = s.cursor
      · subst hic
        exact Or.inl (set_self_mem s.pending e (some s.cursor)
          (lt_length_of_optGet s.pending e none he))
      · have hi' : i < s.cursor := by omega
        rcases h5 i hi' with hp | hw
        · exact Or.inl (mem_set_of_ne s.pending e (some s.cursor) (some i) none hp he
            (fun hh => Option.noConfusion hh))
        · exact Or.inr hw
  | write e i he =>
    have hip : some i ∈ s.pending := mem_of_optGet s.pending e (some i) he
    have hic : i < s.cursor := h4 i hip
    have hiL : i < items.length := lt_of_lt_of_le hic h2
    obtain ⟨x, hx⟩ := optGet_lt items i hiL
    have hval : poolVal items fn i = some (fn x i) := by
      unfold poolVal
      rw [hx]
      rfl
    have hwrite : (s.results.set i (poolVal items fn i))[i]? = some (some (fn x i)) := by
      rw [optGet_set_self s.results i (poolVal items fn i) (by rw [h1]; exact hiL), hval]
    refine ⟨?_, h2, ?_, ?_, ?_⟩
    · show (s.results.set i (poolVal items fn i)).length = items.length
      rw [List.length_set]
      exact h1
    · show (s.pending.set e none).length = (min C (items.length : Int)).toNat
      rw [List.length_set]
      exact h3
    · intro j hj
      show j < s.cursor
      rcases List.mem_or_eq_of_mem_set hj with hm | heq
      · exact h4 j hm
      · exact Option.noConfusion heq
    · intro j hj
      have hj1 : j < s.cursor := hj
      rcases h5 j hj1 with hp | ⟨y, hy, hres⟩
      · rcases mem_set_or_eq_get s.pending e none (some j) hp with hin | hget
        · exact Or.inl hin
        · have hji : j = i := by
            have h0 := hget.symm.trans he
            simpa using h0
          subst hji
          exact Or.inr ⟨x, hx, hwrite⟩
      · by_cases hji : j = i
        · subst hji
          exact Or.inr ⟨x, hx, hwrite⟩
        · refine Or.inr ⟨y, hy, ?_⟩
          show (s.results.set i (poolVal items fn i))[j]? = some (some (fn y j))
          rw [optGet_set_ne s.results i j (poolVal items fn i) hji]
          exact hres

theorem poolInv_reachable (C : Int) (items : List T) (fn : T → Nat → R)
    (s : PoolState R) (hs : PoolReachable C items fn s) : PoolInv C items fn s := by
  induction hs with
  | refl => exact poolInv_init C items fn
  | tail hab hbc ih => exact poolInv_step C items fn _ _ ih hbc

theorem pool_progress (items : List T) (fn : T → Nat → R) (s : PoolState R)
    (hfin : ¬ PoolFinal items s) : ∃ s', PoolStep items fn s s' := by
  by_cases hall : ∀ p ∈ s.pending, p = none
  · simp only [PoolFinal, not_and_or] at hfin
    rcases hfin with h | h
    · exact absurd hall h
    · rw [not_or] at h
      obtain ⟨hne, hcur⟩ := h
      have hlen : 0 < s.pending.length := List.length_pos.mpr hne
      obtain ⟨p, hp⟩ := optGet_lt s.pending 0 hlen
      have hpn : p = none := hall p (mem_of_optGet s.pending 0 p hp)
      subst hpn
      exact ⟨_, PoolStep.claim s 0 hp (by omega)⟩
  · push_neg at hall
    obtain ⟨p, hpmem, hpne⟩ := hall
    obtain ⟨i, rfl⟩ : ∃ i, p = some i := by
      cases p with
      | none => exact absurd rfl hpne
      | some i => exact ⟨i, rfl⟩
    obtain ⟨e, he⟩ := optGet_of_mem s.pending (some i) hpmem
    exact ⟨_, PoolStep.write s e i he⟩

theorem pool_measure_step (items : List T) (fn : T → Nat → R) (s s' : PoolState R)
    (hstep : PoolStep items fn s s') :
    poolMeasure items s' < poolMeasure items s := by
  cases hstep with
  | claim e he hc =>
    have hcnt := countSome_set_some s.pending e s.cursor he
    show 2 * (items.length - (s.cursor + 1)) + countSome (s.pending.set e (some s.cursor)) <
      2 * (items.length - s.cursor) + countSome s.pending
    omega
  | write e i he =>
    have hcnt := countSome_set_none s.pending e i he
    show 2 * (items.length - s.cursor) + countSome (s.pending.set e none) <
      2 * (items.length - s.cursor) + countSome s.pending
    omega

theorem pool_final_results (C : Int) (items : List T) (fn : T → Nat → R)
    (s : PoolState R) (hC : 1 ≤ C) (hinv : PoolInv C items fn s)
    (hfin : PoolFinal items s) :
    s.results.length = items.length ∧
      ∀ i x, items[i]? = some x → s.results[i]? = some (some (fn x i)) := by
  obtain ⟨h1, h2, h3, h4, h5⟩ := hinv
  obtain ⟨hall, hor⟩ := hfin
  refine ⟨h1, ?_⟩
  intro i x hx
  have hiL : i < items.length := lt_length_of_optGet items i x hx
  rcases hor with hemp | hcur
  · rw [hemp] at h3
    have h0 : (min C (items.length : Int)).toNat = 0 := h3.symm
    have hmin : min C (items.length : Int) ≤ 0 := Int.toNat_eq_zero.mp h0
    have : items.length = 0 := by omega
    omega
  · have hic : i < s.cursor := lt_of_lt_of_le hiL hcur
    rcases h5 i hic with hp | ⟨y, hy, hres⟩
    · exact absurd (hall (some i) hp) (by simp)
    · rw [hx] at hy
      obtain rfl : x = y := by
        simpa using hy
      exact hres

/-- C1: for every worker function, every input list of length `L`, every
concurrency `C ≥ 1` and every scheduler interleaving, an `asyncPool` run
is never stuck before completion (progress), always terminates (every
step strictly decreases the measure), and on completion resolves to a
result list of length `L` in which slot `i` holds the resolved value of
`worker(input[i], i)` for every index `i` — independently of the value of
`C`, which only bounds the number of executors. -/
theorem asyncPool_correct (C : Int) (items : List T) (fn : T → Nat → R)
    (s : PoolState R) (hC : 1 ≤ C) (hs : PoolReachable C items fn s) :
    (¬ PoolFinal items s → ∃ s', PoolStep items fn s s') ∧
      (∀ s', PoolStep items fn s s' → poolMeasure items s' < poolMeasure items s) ∧
      (PoolFinal items s →
        s.results.length = items.length ∧
          ∀ i x, items[i]? = some x → s.results[i]? = some (some (fn x i))) :=
  ⟨fun hnf => pool_progress items fn s hnf,
    fun s' hstep => pool_measure_step items fn s s' hstep,
    fun hfin => pool_final_results C items fn s hC
      (poolInv_reachable C items fn s hs) hfin⟩

/-- Witness for `asyncPool_correct`: with concurrency 1 over the items
`[10, 20]` and the worker `fun x i => x + i`, the four-step schedule
claim-write-claim-write reaches a final state whose result list is
`[some 10, some 21]`, slot by slot as the theorem asserts. -/
theorem asyncPool_correct_witness :
    ∃ s : PoolState Nat, PoolReachable 1 [10, 20] (fun x i => x + i) s ∧
      PoolFinal [10, 20] s ∧ s.results.length = 2 ∧
      s.results[0]? = some (some 10) ∧ s.results[1]? = some (some 21) := by
  have h1 : PoolStep [10, 20] (fun x i => x + i) (poolInit Nat 1 [10, 20])
      ⟨1, [some 0], [none, none]⟩ :=
    PoolStep.claim (poolInit Nat 1 [10, 20]) 0 rfl (by decide)
  have h2 : PoolStep [10, 20] (fun x i => x + i)
      (⟨1, [some 0], [none, none]⟩ : PoolState Nat) ⟨1, [none], [some 10, none]⟩ :=
    PoolStep.write (⟨1, [some 0], [none, none]⟩ : PoolState Nat) 0 0 rfl
  have h3 : PoolStep [10, 20] (fun x i => x + i)
      (⟨1, [none], [some 10, none]⟩ : PoolState Nat) ⟨2, [some 1], [some 10, none]⟩ :=
    PoolStep.claim (⟨1, [none], [some 10, none]⟩ : PoolState Nat) 0 rfl (by decide)
  have h4 : PoolStep [10, 20] (fun x i => x + i)
      (⟨2, [some 1], [some 10, none]⟩ : PoolState Nat) ⟨2, [none], [some 10, some 21]⟩ :=
    PoolStep.write (⟨2, [some 1], [some 10, none]⟩ : PoolState Nat) 0 1 rfl
  have hreach : PoolReachable 1 [10, 20] (fun x i => x + i)
      (⟨2, [none], [some 10, some 21]⟩ : PoolState Nat) :=
    Relation.ReflTransGen.tail
      (Relation.ReflTransGen.tail
        (Relation.ReflTransGen.tail
          (Relation.ReflTransGen.tail Relation.ReflTransGen.refl h1) h2) h3) h4
  have hfin : PoolFinal [10, 20] (⟨2, [none], [some 10, some 21]⟩ : PoolState Nat) :=
    ⟨fun p hp => List.eq_of_mem_singleton hp, Or.inr (by decide)⟩
  have hmain := (asyncPool_correct 1 [10, 20] (fun x i => x + i)
    (⟨2, [none], [some 10, some 21]⟩ : PoolState Nat) (by decide) hreach).2.2 hfin
  exact ⟨⟨2, [none], [some 10, some 21]⟩, hreach, hfin, hmain.1,
    hmain.2 0 10 rfl, hmain.2 1 20 rfl⟩

/-- C2, counterexample: with concurrency `0` and the nonempty task list
`[1, 2]`, `Math.min(0, 2) = 0` executors are created, so the run's
initial state is already final and the promise resolves to the untouched
`Array.from({length: 2})` — a result list of length 2 whose slots are all
`undefined`, not the empty result sequence the claim asserts. -/
theorem asyncPool_emptyClaim_cex :
    PoolFinal [1, 2] (poolInit Nat 0 [1, 2]) ∧
      (poolInit Nat 0 [1, 2]).results = [none, none] ∧
      (poolInit Nat 0 [1, 2]).results ≠ ([] : List (Option Nat)) := by
  refine ⟨⟨?_, Or.inl rfl⟩, rfl, by simp [poolInit]⟩
  intro p hp
  simp [poolInit] at hp

/-- C2, amended: an empty task list makes the run complete immediately with
an empty result list; but a concurrency limit `≤ 0` with a nonempty task
list creates no executors, makes no step possible, and the run completes
immediately with a result list of the input's length whose every slot is
still the `undefined` placeholder — not an empty result sequence. -/
theorem asyncPool_degenerate (C : Int) (items : List T) (fn : T → Nat → R) :
    (items = [] →
        PoolFinal items (poolInit R C items) ∧ (poolInit R C items).results = []) ∧
      (C ≤ 0 →
        (poolInit R C items).pending = [] ∧
          PoolFinal items (poolInit R C items) ∧
          (poolInit R C items).results = List.replicate items.length none ∧
          ∀ s', ¬ PoolStep items fn (poolInit R C items) s') := by
  constructor
  · rintro rfl
    have hp : (poolInit R C ([] : List T)).pending = [] := by
      simp [poolInit, Int.toNat_of_nonpos (min_le_right C 0)]
    refine ⟨⟨?_, Or.inl hp⟩, by simp [poolInit]⟩
    intro p hmem
    rw [hp] at hmem
    simp at hmem
  · intro hC
    have hmin : min C (items.length : Int) ≤ 0 := le_trans (min_le_left _ _) hC
    have hp : (poolInit R C items).pending = [] := by
      simp [poolInit, Int.toNat_of_nonpos hmin]
    refine ⟨hp, ⟨?_, Or.inl hp⟩, rfl, ?_⟩
    · intro p hmem
      rw [hp] at hmem
      simp at hmem
    · intro s' hstep
      cases hstep with
      | claim e he hc =>
        rw [hp] at he
        simp at he
      | write e i he =>
        rw [hp] at he
        simp at he

/-- Witness for `asyncPool_degenerate` at concurrency `0` with items
`[1, 2]`, and at concurrency `3` with no items. -/
theorem asyncPool_degenerate_witness :
    (poolInit Nat 0 [1, 2]).pending = [] ∧
      PoolFinal [1, 2] (poolInit Nat 0 [1, 2]) ∧
      (poolInit Nat 0 [1, 2]).results = List.replicate 2 none ∧
      PoolFinal ([] : List Nat) (poolInit Nat 3 ([] : List Nat)) ∧
      (poolInit Nat 3 ([] : List Nat)).results = [] := by
  have h2 := (asyncPool_degenerate 0 [1, 2] (fun x _ => x)).2 (by decide)
  have h1 := (asyncPool_degenerate 3 ([] : List Nat) (fun x _ => x)).1 rfl
  exact ⟨h2.1, h2.2.1, h2.2.2.1, h1.1, h1.2⟩

end Utils
